import Mathlib

/-!
Verification of the `lsp-rs` language-server core (`src/lib.rs`).

Rust `String` values are modelled as `List Char`; byte buffers (`&[u8]`) as
`List Nat`.  Byte lengths are computed through `chSize`, the model of
`char::len_utf8`, so `str::len` (bytes) and `str::chars` (characters) are
kept distinct, exactly as in the source.  Machine-integer overflow is
modelled explicitly, matching the overflow checks of the debug profile
under which the repository's own tests run: `index - 1` at index 0 and
`usize::pow(2, line)` for lines of 64 and more in the hover handler, and
the child-index arithmetic `2*index + 1` / `2*index + 2` for indices of
`2^63` / `2^63 - 1` and more, are represented by explicit panic outcomes.
The width computation `usize::pow(2, d + 1)` inside `FileState::new` is
kept as plain arithmetic: reaching depth 63 requires a preceding line of
exactly `2^63 - 1` bytes, beyond any constructible Rust string, so that
overflow is unreachable from real inputs.
-/

set_option maxRecDepth 16384

namespace LspRs

/-- Model of Rust `char::len_utf8`: number of bytes in the UTF-8 encoding. -/
def chSize (c : Char) : Nat :=
  if c.toNat < 0x80 then 1
  else if c.toNat < 0x800 then 2
  else if c.toNat < 0x10000 then 3
  else 4

/-- Model of Rust `str::len`: UTF-8 byte length of a string. -/
def bytLen (s : List Char) : Nat := (s.map chSize).sum

/-- Model of Rust `char::encode_utf8`: the UTF-8 bytes of one character. -/
def encChar (c : Char) : List Nat :=
  if c.toNat < 0x80 then [c.toNat]
  else if c.toNat < 0x800 then [0xC0 + c.toNat / 0x40, 0x80 + c.toNat % 0x40]
  else if c.toNat < 0x10000 then
    [0xE0 + c.toNat / 0x1000, 0x80 + c.toNat / 0x40 % 0x40, 0x80 + c.toNat % 0x40]
  else
    [0xF0 + c.toNat / 0x40000, 0x80 + c.toNat / 0x1000 % 0x40,
      0x80 + c.toNat / 0x40 % 0x40, 0x80 + c.toNat % 0x40]

/-- Model of Rust `str::as_bytes`: the UTF-8 bytes of a whole string. -/
def strBytes (s : List Char) : List Nat := (s.map encChar).flatten

/-- The replacement character U+FFFD emitted by lossy UTF-8 decoding. -/
def repl : Char := '�'

/-- A UTF-8 continuation byte (0x80–0xBF). -/
def contP (b : Nat) : Prop := 0x80 ≤ b ∧ b ≤ 0xBF

instance (b : Nat) : Decidable (contP b) := inferInstanceAs (Decidable (_ ∧ _))

/-- Admissible second byte of a three-byte sequence led by `b0` (the ranges
of Rust's UTF-8 validation, which exclude overlongs and surrogates). -/
def cont3 (b0 b1 : Nat) : Prop :=
  (b0 = 0xE0 ∧ 0xA0 ≤ b1 ∧ b1 ≤ 0xBF) ∨
  (0xE1 ≤ b0 ∧ b0 ≤ 0xEC ∧ 0x80 ≤ b1 ∧ b1 ≤ 0xBF) ∨
  (b0 = 0xED ∧ 0x80 ≤ b1 ∧ b1 ≤ 0x9F) ∨
  (0xEE ≤ b0 ∧ b0 ≤ 0xEF ∧ 0x80 ≤ b1 ∧ b1 ≤ 0xBF)

instance (b0 b1 : Nat) : Decidable (cont3 b0 b1) :=
  inferInstanceAs (Decidable (_ ∨ _))

/-- Admissible second byte of a four-byte sequence led by `b0`. -/
def cont4 (b0 b1 : Nat) : Prop :=
  (b0 = 0xF0 ∧ 0x90 ≤ b1 ∧ b1 ≤ 0xBF) ∨
  (0xF1 ≤ b0 ∧ b0 ≤ 0xF3 ∧ 0x80 ≤ b1 ∧ b1 ≤ 0xBF) ∨
  (b0 = 0xF4 ∧ 0x80 ≤ b1 ∧ b1 ≤ 0x8F)

instance (b0 b1 : Nat) : Decidable (cont4 b0 b1) :=
  inferInstanceAs (Decidable (_ ∨ _))

/-- One decoding step of Rust's lossy UTF-8 decoder per unit of fuel: each
step either decodes one well-formed scalar or replaces one maximal invalid
subpart by U+FFFD.  Candidate continuation bytes are read with default 0,
which never passes a continuation check, so a missing byte behaves exactly
like an invalid one (as in Rust, an incomplete final sequence yields one
replacement character).  Called with fuel equal to the byte count, which
bounds the number of steps, so the fuel never runs out. -/
def lossyGo : Nat → List Nat → List Char
  | _, [] => []
  | 0, _ :: _ => []
  | f + 1, b0 :: rest =>
    if b0 < 0x80 then Char.ofNat b0 :: lossyGo f rest
    else if 0xC2 ≤ b0 ∧ b0 ≤ 0xDF then
      if contP (rest.headD 0) then
        Char.ofNat ((b0 - 0xC0) * 0x40 + (rest.headD 0 - 0x80)) :: lossyGo f (rest.drop 1)
      else repl :: lossyGo f rest
    else if 0xE0 ≤ b0 ∧ b0 ≤ 0xEF then
      if cont3 b0 (rest.headD 0) then
        if contP ((rest.drop 1).headD 0) then
          Char.ofNat ((b0 - 0xE0) * 0x1000 + (rest.headD 0 - 0x80) * 0x40 +
            ((rest.drop 1).headD 0 - 0x80)) :: lossyGo f (rest.drop 2)
        else repl :: lossyGo f (rest.drop 1)
      else repl :: lossyGo f rest
    else if 0xF0 ≤ b0 ∧ b0 ≤ 0xF4 then
      if cont4 b0 (rest.headD 0) then
        if contP ((rest.drop 1).headD 0) then
          if contP ((rest.drop 2).headD 0) then
            Char.ofNat ((b0 - 0xF0) * 0x40000 + (rest.headD 0 - 0x80) * 0x1000 +
              ((rest.drop 1).headD 0 - 0x80) * 0x40 + ((rest.drop 2).headD 0 - 0x80)) ::
              lossyGo f (rest.drop 3)
          else repl :: lossyGo f (rest.drop 2)
        else repl :: lossyGo f (rest.drop 1)
      else repl :: lossyGo f rest
    else repl :: lossyGo f rest

/-- Model of Rust `String::from_utf8_lossy`. -/
def lossyDecode (bs : List Nat) : List Char := lossyGo bs.length bs

theorem lossyGo_nil (f : Nat) : lossyGo f [] = [] := by
  cases f <;> rfl

theorem length_encChar (c : Char) : (encChar c).length = chSize c := by
  unfold encChar chSize
  split_ifs <;> rfl

theorem chSize_pos (c : Char) : 1 ≤ chSize c := by
  unfold chSize
  split_ifs <;> omega

theorem length_strBytes (s : List Char) : (strBytes s).length = bytLen s := by
  induction s with
  | nil => rfl
  | cons c s ih =>
    show (encChar c ++ strBytes s).length = chSize c + bytLen s
    rw [List.length_append, length_encChar, ih]

/-- A character's validity, as plain `Nat` facts about its code point. -/
theorem char_valid_nat (c : Char) :
    c.toNat < 0xd800 ∨ (0xdfff < c.toNat ∧ c.toNat < 0x110000) := by
  have h := c.valid
  unfold UInt32.isValidChar at h
  exact h

/-- One step of the lossy decoder consumes exactly the UTF-8 encoding of a
character and yields that character back. -/
theorem lossyGo_encChar (c : Char) (f : Nat) (bs : List Nat) :
    lossyGo (f + 1) (encChar c ++ bs) = c :: lossyGo f bs := by
  have hval := char_valid_nat c
  rcases Nat.lt_or_ge c.toNat 0x80 with h1 | h1
  · have henc : encChar c = [c.toNat] := by unfold encChar; rw [if_pos h1]
    rw [henc, List.cons_append, List.nil_append, lossyGo, if_pos h1, Char.ofNat_toNat]
  · rcases Nat.lt_or_ge c.toNat 0x800 with h2 | h2
    · have henc : encChar c = [0xC0 + c.toNat / 0x40, 0x80 + c.toNat % 0x40] := by
        unfold encChar; rw [if_neg (by omega), if_pos h2]
      rw [henc]
      show lossyGo (f + 1) ((0xC0 + c.toNat / 0x40) :: (0x80 + c.toNat % 0x40) :: bs)
        = c :: lossyGo f bs
      rw [lossyGo, if_neg (by omega), if_pos (show 0xC2 ≤ 0xC0 + c.toNat / 0x40 ∧
        0xC0 + c.toNat / 0x40 ≤ 0xDF by omega)]
      simp only [List.headD_cons, List.drop_succ_cons, List.drop_zero]
      rw [if_pos (show contP (0x80 + c.toNat % 0x40) from ⟨by omega, by omega⟩)]
      rw [show (0xC0 + c.toNat / 0x40 - 0xC0) * 0x40 + (0x80 + c.toNat % 0x40 - 0x80)
        = c.toNat by omega, Char.ofNat_toNat]
    · rcases Nat.lt_or_ge c.toNat 0x10000 with h3 | h3
      · have henc : encChar c = [0xE0 + c.toNat / 0x1000, 0x80 + c.toNat / 0x40 % 0x40,
            0x80 + c.toNat % 0x40] := by
          unfold encChar; rw [if_neg (by omega), if_neg (by omega), if_pos h3]
        rw [henc]
        show lossyGo (f + 1) ((0xE0 + c.toNat / 0x1000) :: (0x80 + c.toNat / 0x40 % 0x40) ::
          (0x80 + c.toNat % 0x40) :: bs) = c :: lossyGo f bs
        rw [lossyGo, if_neg (by omega), if_neg (by omega),
          if_pos (show 0xE0 ≤ 0xE0 + c.toNat / 0x1000 ∧ 0xE0 + c.toNat / 0x1000 ≤ 0xEF by omega)]
        simp only [List.headD_cons, List.drop_succ_cons, List.drop_zero]
        have hc3 : cont3 (0xE0 + c.toNat / 0x1000) (0x80 + c.toNat / 0x40 % 0x40) := by
          unfold cont3
          rcases Nat.lt_or_ge (c.toNat / 0x1000) 1 with hd | hd
          · exact Or.inl ⟨by omega, by omega, by omega⟩
          · rcases Nat.lt_or_ge (c.toNat / 0x1000) 0xD with he | he
            · exact Or.inr (Or.inl ⟨by omega, by omega, by omega, by omega⟩)
            · rcases Nat.lt_or_ge (c.toNat / 0x1000) 0xE with hf | hf
              · exact Or.inr (Or.inr (Or.inl ⟨by omega, by omega, by omega⟩))
              · exact Or.inr (Or.inr (Or.inr ⟨by omega, by omega, by omega, by omega⟩))
        rw [if_pos hc3]
        rw [if_pos (show contP (0x80 + c.toNat % 0x40) from ⟨by omega, by omega⟩)]
        rw [show (0xE0 + c.toNat / 0x1000 - 0xE0) * 0x1000 +
          (0x80 + c.toNat / 0x40 % 0x40 - 0x80) * 0x40 + (0x80 + c.toNat % 0x40 - 0x80)
          = c.toNat by omega, Char.ofNat_toNat]
      · have h4 : c.toNat < 0x110000 := by omega
        have henc : encChar c = [0xF0 + c.toNat / 0x40000, 0x80 + c.toNat / 0x1000 % 0x40,
            0x80 + c.toNat / 0x40 % 0x40, 0x80 + c.toNat % 0x40] := by
          unfold encChar; rw [if_neg (by omega), if_neg (by omega), if_neg (by omega)]
        rw [henc]
        show lossyGo (f + 1) ((0xF0 + c.toNat / 0x40000) :: (0x80 + c.toNat / 0x1000 % 0x40) ::
          (0x80 + c.toNat / 0x40 % 0x40) :: (0x80 + c.toNat % 0x40) :: bs) = c :: lossyGo f bs
        rw [lossyGo, if_neg (by omega), if_neg (by omega), if_neg (by omega),
          if_pos (show 0xF0 ≤ 0xF0 + c.toNat / 0x40000 ∧ 0xF0 + c.toNat / 0x40000 ≤ 0xF4 by
            omega)]
        simp only [List.headD_cons, List.drop_succ_cons, List.drop_zero]
        have hc4 : cont4 (0xF0 + c.toNat / 0x40000) (0x80 + c.toNat / 0x1000 % 0x40) := by
          unfold cont4
          rcases Nat.lt_or_ge (c.toNat / 0x40000) 1 with hd | hd
          · exact Or.inl ⟨by omega, by omega, by omega⟩
          · rcases Nat.lt_or_ge (c.toNat / 0x40000) 4 with he | he
            · exact Or.inr (Or.inl ⟨by omega, by omega, by omega, by omega⟩)
            · exact Or.inr (Or.inr ⟨by omega, by omega, by omega⟩)
        rw [if_pos hc4]
        rw [if_pos (show contP (0x80 + c.toNat / 0x40 % 0x40) from ⟨by omega, by omega⟩)]
        rw [if_pos (show contP (0x80 + c.toNat % 0x40) from ⟨by omega, by omega⟩)]
        rw [show (0xF0 + c.toNat / 0x40000 - 0xF0) * 0x40000 +
          (0x80 + c.toNat / 0x1000 % 0x40 - 0x80) * 0x1000 +
          (0x80 + c.toNat / 0x40 % 0x40 - 0x80) * 0x40 + (0x80 + c.toNat % 0x40 - 0x80)
          = c.toNat by omega, Char.ofNat_toNat]

/-- Decoding the UTF-8 bytes of a string, with enough fuel, recovers the
string and leaves the remaining fuel for a remaining suffix. -/
theorem lossyGo_strBytes (s : List Char) (f : Nat) (bs : List Nat) :
    lossyGo (s.length + f) (strBytes s ++ bs) = s ++ lossyGo f bs := by
  induction s generalizing f with
  | nil => simp [strBytes]
  | cons c s ih =>
    have hsb : strBytes (c :: s) = encChar c ++ strBytes s := rfl
    rw [hsb, List.append_assoc, List.length_cons,
      show s.length + 1 + f = s.length + f + 1 from by omega,
      lossyGo_encChar, ih, List.cons_append]

/-- Lossy decoding inverts UTF-8 encoding on every string. -/
theorem lossyDecode_strBytes (s : List Char) : lossyDecode (strBytes s) = s := by
  have hlen : s.length ≤ (strBytes s).length := by
    rw [length_strBytes]
    induction s with
    | nil => simp [bytLen]
    | cons c s ih =>
      have hb : bytLen (c :: s) = chSize c + bytLen s := rfl
      have hc := chSize_pos c
      simp only [List.length_cons]
      omega
  unfold lossyDecode
  obtain ⟨d, hd⟩ : ∃ d, (strBytes s).length = s.length + d :=
    ⟨(strBytes s).length - s.length, by omega⟩
  have h2 := lossyGo_strBytes s d []
  simp only [List.append_nil, lossyGo_nil] at h2
  rw [hd, h2]

/-- The decimal digit characters emitted by Rust's integer formatter. -/
def digitChar : Nat → Char
  | 0 => '0' | 1 => '1' | 2 => '2' | 3 => '3' | 4 => '4'
  | 5 => '5' | 6 => '6' | 7 => '7' | 8 => '8' | _ => '9'

/-- Core of the decimal formatter (model of `usize`'s `Display`), structural
on fuel; `toDec` supplies fuel exceeding the digit count. -/
def toDecCore : Nat → Nat → List Char → List Char
  | 0, _, acc => acc
  | f + 1, n, acc =>
    if n < 10 then digitChar n :: acc
    else toDecCore f (n / 10) (digitChar (n % 10) :: acc)

/-- Model of Rust's decimal formatting of a `usize`. -/
def toDec (n : Nat) : List Char := toDecCore (n + 1) n []

/-- The same decimal formatter, by well-founded recursion, for proofs. -/
def toDecW (n : Nat) : List Char :=
  if n < 10 then [digitChar n] else toDecW (n / 10) ++ [digitChar (n % 10)]
termination_by n
decreasing_by omega

theorem toDecCore_eq (f : Nat) : ∀ n acc, n < 10 ^ f → 0 < f →
    toDecCore f n acc = toDecW n ++ acc := by
  induction f with
  | zero => omega
  | succ f ih =>
    intro n acc hn _
    rcases Nat.lt_or_ge n 10 with h | h
    · rw [toDecCore, if_pos h, toDecW, if_pos h, List.cons_append, List.nil_append]
    · have hf : 0 < f := by
        by_contra hf
        have : f = 0 := by omega
        subst this
        simp [pow_succ] at hn
        omega
      rw [toDecCore, if_neg (by omega), toDecW, if_neg (by omega),
        ih (n / 10) _ (by
          have h10 : 10 ^ (f + 1) = 10 ^ f * 10 := pow_succ 10 f
          omega) hf, List.append_assoc, List.singleton_append]

theorem toDec_eq_toDecW (n : Nat) : toDec n = toDecW n := by
  have h1 : n < 10 ^ (n + 1) := by
    calc n < 10 ^ n := Nat.lt_pow_self (by norm_num) n
    _ ≤ 10 ^ (n + 1) := Nat.pow_le_pow_right (by norm_num) (Nat.le_succ n)
  rw [toDec, toDecCore_eq (n + 1) n [] h1 (by omega), List.append_nil]

/-- Digit characters have code points 48–57. -/
def isDigitN (c : Char) : Prop := 48 ≤ c.toNat ∧ c.toNat ≤ 57

instance (c : Char) : Decidable (isDigitN c) := inferInstanceAs (Decidable (_ ∧ _))

theorem digitChar_isDigitN (d : Nat) (hd : d < 10) : isDigitN (digitChar d) := by
  interval_cases d <;> decide

theorem toDecW_ne_nil (n : Nat) : toDecW n ≠ [] := by
  rw [toDecW]
  split_ifs <;> simp

theorem toDecW_digits (n : Nat) : ∀ c ∈ toDecW n, isDigitN c := by
  induction n using Nat.strong_induction_on with
  | _ n ih =>
    rw [toDecW]
    split_ifs with h
    · intro c hc
      rw [List.mem_singleton] at hc
      subst hc
      exact digitChar_isDigitN n h
    · intro c hc
      rw [List.mem_append] at hc
      rcases hc with hc | hc
      · exact ih (n / 10) (by omega) c hc
      · rw [List.mem_singleton] at hc
        subst hc
        exact digitChar_isDigitN (n % 10) (by omega)

/-- Numeric value of a digit string, folded left as Rust's integer parser does. -/
def digitsVal (ds : List Char) : Nat := ds.foldl (fun a c => a * 10 + (c.toNat - 48)) 0

theorem digitsVal_go (ds : List Char) : ∀ a,
    ds.foldl (fun a c => a * 10 + (c.toNat - 48)) a
      = a * 10 ^ ds.length + digitsVal ds := by
  induction ds with
  | nil => intro a; simp [digitsVal]
  | cons c ds ih =>
    intro a
    rw [List.foldl_cons, ih]
    unfold digitsVal
    rw [List.foldl_cons, ih (0 * 10 + (c.toNat - 48))]
    simp [List.length_cons, pow_succ]
    unfold digitsVal
    ring

theorem digitVal_digitChar (d : Nat) (hd : d < 10) : (digitChar d).toNat - 48 = d := by
  interval_cases d <;> rfl

theorem digitsVal_toDecW (n : Nat) : digitsVal (toDecW n) = n := by
  induction n using Nat.strong_induction_on with
  | _ n ih =>
    rw [toDecW]
    split_ifs with h
    · unfold digitsVal
      rw [List.foldl_cons, List.foldl_nil, digitVal_digitChar n h]
      omega
    · unfold digitsVal
      rw [List.foldl_append]
      have hfold := digitsVal_go [digitChar (n % 10)]
        (List.foldl (fun a c => a * 10 + (c.toNat - 48)) 0 (toDecW (n / 10)))
      rw [hfold]
      have h1 : digitsVal [digitChar (n % 10)] = n % 10 := by
        unfold digitsVal
        rw [List.foldl_cons, List.foldl_nil, digitVal_digitChar (n % 10) (by omega)]
        omega
      have h2 : List.foldl (fun a c => a * 10 + (c.toNat - 48)) 0 (toDecW (n / 10))
          = n / 10 := ih (n / 10) (by omega)
      rw [h1, h2]
      simp [List.length_cons]
      omega

/-- Digit-run part of Rust `str::parse::<usize>`: one or more ASCII digits
whose value fits in 64 bits (the checked fold overflows otherwise). -/
def parseDigits (ds : List Char) : Option Nat :=
  if ds = [] then none
  else if ds.all (fun c => decide (isDigitN c)) then
    if digitsVal ds < 2 ^ 64 then some (digitsVal ds) else none
  else none

/-- Model of Rust `str::parse::<usize>`: an optional leading plus sign, then
one or more ASCII digits, and a value that fits in 64 bits. -/
def parseUsize (s : List Char) : Option Nat :=
  parseDigits (if s.headD ' ' = '+' then s.drop 1 else s)

theorem parseUsize_toDec (n : Nat) (hn : n < 2 ^ 64) : parseUsize (toDec n) = some n := by
  rw [toDec_eq_toDecW]
  have hne := toDecW_ne_nil n
  have hdig := toDecW_digits n
  have hhead : ¬ ((toDecW n).headD ' ' = '+') := by
    cases hl : toDecW n with
    | nil => exact absurd hl hne
    | cons c rest =>
      have hc : isDigitN c := hdig c (by rw [hl]; exact List.mem_cons_self c rest)
      unfold isDigitN at hc
      simp only [List.headD_cons]
      intro hplus
      rw [hplus] at hc
      revert hc
      decide
  rw [parseUsize, if_neg hhead, parseDigits, if_neg hne]
  rw [if_pos (by
    rw [List.all_eq_true]
    intro c hc
    exact decide_eq_true (hdig c hc))]
  rw [digitsVal_toDecW, if_pos hn]

/-- The literal header prefix `"Content-Length: "`. -/
def clPrefix : List Char :=
  ['C', 'o', 'n', 't', 'e', 'n', 't', '-', 'L', 'e', 'n', 'g', 't', 'h', ':', ' ']

/-- The four-byte separator between header and content. -/
def crlf2 : List Char := ['\r', '\n', '\r', '\n']

/-- `rpc::encode_message`: prepend `"Content-Length: {n}\r\n\r\n"` where `n`
is the byte length of the message. -/
def encode_message (message : List Char) : List Char :=
  clPrefix ++ toDec (bytLen message) ++ crlf2 ++ message

/-- Model of Rust `str::split_once`: split at the first occurrence of `sep`. -/
def splitOnce (sep : List Char) : List Char → Option (List Char × List Char)
  | [] => if sep.isPrefixOf [] then some ([], []) else none
  | c :: rest =>
    if sep.isPrefixOf (c :: rest) then some ([], (c :: rest).drop sep.length)
    else
      match splitOnce sep rest with
      | some (pre, post) => some (c :: pre, post)
      | none => none

/-- Strip `pat` from the front of `s`, if it is a prefix. -/
def stripPrefix : List Char → List Char → Option (List Char)
  | [], s => some s
  | _ :: _, [] => none
  | p :: ps, c :: cs => if p = c then stripPrefix ps cs else none

/-- Fuelled core of `str::trim_start_matches`; each successful strip removes
at least one character, so fuel `s.length` never runs out. -/
def trimCore : Nat → List Char → List Char → List Char
  | 0, _, s => s
  | f + 1, pat, s =>
    if pat = [] then s
    else
      match stripPrefix pat s with
      | some rest => trimCore f pat rest
      | none => s

/-- Model of Rust `str::trim_start_matches`: repeatedly remove a leading
occurrence of `pat`. -/
def trimStartMatches (pat s : List Char) : List Char := trimCore s.length pat s

/-- Model of Rust byte slicing `&content[..n]` followed by `String::from`:
`some` prefix when `n` is on a character boundary within the string, `none`
when the slice would panic. -/
def byteTake (n : Nat) (s : List Char) : Option (List Char) :=
  if n = 0 then some []
  else
    match s with
    | [] => none
    | c :: rest =>
      if chSize c ≤ n then (byteTake (n - chSize c) rest).map (fun l => c :: l)
      else none

/-- Error message of `decode_message` when the separator is absent.  The
source spells the separator with escaped backslashes, so the reason text
holds the two-character sequences backslash-r and backslash-n, not CR/LF
control characters. -/
def errNoSep : List Char := "Invalid format, contains no \\r\\n\\r\\n".data

/-- Error message of `decode_message` when the header prefix is wrong. -/
def errNoCl : List Char := "Expected header starting with Content-Length".data

/-- Error message of `decode_message` when the length does not parse. -/
def errParseLen : List Char := "Could not parse content length to number".data

/-- Outcome of `rpc::decode_message`.  `popped content total` is
`Ok(Some((content, total_length)))`, `needMore` is `Ok(None)`, `err` is
`Err(MsgParseError(..))`, and `panicked` marks the byte-slice panic that
occurs when `content_length` is not a character boundary of the content. -/
inductive DecodeOut where
  | popped : List Char → Nat → DecodeOut
  | needMore : DecodeOut
  | err : List Char → DecodeOut
  | panicked : DecodeOut
deriving DecidableEq

/-- `rpc::decode_message` (src/lib.rs lines 122–147).  Note that the total
length is `header.len() + 4 + content.len()`, with `content` the whole
remainder of the buffer — exactly as in the source. -/
def decode_message (message : List Char) : DecodeOut :=
  match splitOnce crlf2 message with
  | none => .err errNoSep
  | some (header, content) =>
    if clPrefix.isPrefixOf header then
      match parseUsize (trimStartMatches clPrefix header) with
      | none => .err errParseLen
      | some content_length =>
        if content_length > bytLen content then .needMore
        else
          match byteTake content_length content with
          | some payload => .popped payload (bytLen header + 4 + bytLen content)
          | none => .panicked
    else .err errNoCl

/-- `rpc::BufferedReader::write`: append a byte chunk, decoded with
`String::from_utf8_lossy`, to the pending data. -/
def write (data : List Char) (buffer : List Nat) : List Char :=
  data ++ lossyDecode buffer

/-- Outcome of `rpc::BufferedReader::pop_message` as seen by the caller. -/
inductive PopOut where
  | complete : List Char → PopOut
  | incomplete : PopOut
  | malformed : List Char → PopOut
  | panicked : PopOut
deriving DecidableEq

/-- `rpc::BufferedReader::pop_message`: decode, and on success drop
`total_len` *characters* (`chars().skip(total_len)`) from the data. -/
def pop_message (data : List Char) : List Char × PopOut :=
  match decode_message data with
  | .popped content total => (data.drop total, .complete content)
  | .needMore => (data, .incomplete)
  | .err e => (data, .malformed e)
  | .panicked => (data, .panicked)

example :
    pop_message "Content-Length: 2\r\n\r\nhiab".data
      = ([], .complete "hi".data) := by decide

example :
    pop_message "Content-Length: 18\r\n\r\nshort".data
      = ("Content-Length: 18\r\n\r\nshort".data, .incomplete) := by decide

example :
    pop_message "ABC \r\n\r\n".data = ("ABC \r\n\r\n".data, .malformed errNoCl) := by decide

/-- Characters at even offsets of a line (Rust `chars().step_by(2)`). -/
def everyOther : List Char → List Char
  | [] => []
  | [c] => [c]
  | c :: _ :: rest => c :: everyOther rest

/-- Split at `'\n'` only; the pieces still carry any `'\r'` before the split
and the trailing-newline piece. -/
def rustLinesRaw : List Char → List (List Char)
  | [] => []
  | '\n' :: rest => [] :: rustLinesRaw rest
  | c :: rest =>
    match rustLinesRaw rest with
    | [] => [[c]]
    | l :: ls => (c :: l) :: ls

/-- Remove one trailing `'\r'`, as Rust's `lines` does on a piece that was
terminated by `'\n'`. -/
def stripCR (l : List Char) : List Char :=
  match l.getLast? with
  | some '\r' => l.dropLast
  | _ => l

/-- Model of Rust `str::lines`: split on `'\n'`, strip a `'\r'` preceding
each split, keep a bare trailing `'\r'` on an unterminated final line, and
drop nothing else; a trailing line terminator yields no extra empty line. -/
def rustLines (s : List Char) : List (List Char) :=
  if s.getLast? = some '\n' then (rustLinesRaw s).map stripCR
  else ((rustLinesRaw s).dropLast.map stripCR) ++ (rustLinesRaw s).getLast?.toList

example : rustLines "A\nB C\nD".data = ["A".data, "B C".data, "D".data] := by decide
example : rustLines [] = [] := by decide
example : rustLines "A\r\n\r".data = ["A".data, ['\r']] := by decide
example : rustLines "A\n".data = ["A".data] := by decide

/-- `editor::FileState`: the level-order node labels (each the `String` made
from one character) and the raw character count field. -/
structure FileState where
  tree : List (List Char)
  char_count : Nat
deriving DecidableEq

/-- The per-line loop body of `editor::FileState::new`: at depth `d` with
last index `lastIdx`, check the width rule and that odd offsets hold spaces,
then append the even-offset characters, each as a one-character string. -/
def buildTree (lastIdx : Nat) : Nat → List (List Char) → Option (List (List Char))
  | _, [] => some []
  | d, line :: rest =>
    if (d ≠ lastIdx ∧ bytLen line ≠ 2 ^ (d + 1) - 1) ∨
        (d = lastIdx ∧ bytLen line > 2 ^ (d + 1) - 1) then none
    else if ¬ (everyOther (line.drop 1)).all (fun c => c = ' ') then none
    else
      match buildTree lastIdx (d + 1) rest with
      | some t => some ((everyOther line).map (fun c => [c]) ++ t)
      | none => none

/-- `editor::FileState::new` (src/lib.rs lines 14–39): validate the
fixed-width tree text and record `file_content.len()` (bytes). -/
def FileState.new (file_content : List Char) : Option FileState :=
  match buildTree ((rustLines file_content).length - 1) 0 (rustLines file_content) with
  | some t => some ⟨t, bytLen file_content⟩
  | none => none

/-- `editor::FileState::get_char_count`. -/
def FileState.get_char_count (fs : FileState) : Nat := fs.char_count

/-- `editor::FileState::get`. -/
def FileState.get (fs : FileState) (index : Nat) : Option (List Char) :=
  fs.tree.get? index

/-- Result of a child lookup under the debug profile's overflow checks:
either the source's `Option<&String>`, or the panic of the child-index
arithmetic overflowing `usize`. -/
inductive NavOut where
  | res : Option (List Char) → NavOut
  | panicked : NavOut
deriving DecidableEq

/-- `editor::FileState::left_child`: `2 * index + 1` overflows `usize`
exactly when `index ≥ 2^63` (then `2 * index ≥ 2^64`; otherwise
`2 * index + 1 ≤ 2^64 - 1`), a debug-build panic. -/
def FileState.left_child (fs : FileState) (index : Nat) : NavOut :=
  if 2 ^ 63 ≤ index then .panicked else .res (fs.tree.get? (2 * index + 1))

/-- `editor::FileState::right_child`: `2 * index + 2` overflows `usize`
exactly when `index ≥ 2^63 - 1`, a debug-build panic. -/
def FileState.right_child (fs : FileState) (index : Nat) : NavOut :=
  if 2 ^ 63 - 1 ≤ index then .panicked else .res (fs.tree.get? (2 * index + 2))

/-- `editor::FileState::parent`. -/
def FileState.parent (fs : FileState) (index : Nat) : Option (List Char) :=
  match index with
  | 0 => none
  | _ => fs.tree.get? ((index - 1) / 2)

example :
    FileState.new "A\nB C\nD".data
      = some ⟨[['A'], ['B'], ['C'], ['D']], 7⟩ := by decide
example : FileState.new "A\nB  C\nD".data = none := by decide
example : FileState.new "A\né".data = some ⟨[['A'], ['é']], 4⟩ := by decide

/-- `editor::EditorState`: the URI-keyed document map, as a function. -/
structure EditorState where
  files : List Char → Option FileState

/-- `editor::EditorState::new`. -/
def EditorState.new : EditorState := ⟨fun _ => none⟩

/-- `editor::EditorState::modify_file` (src/lib.rs lines 72–81): build the
candidate document; commit it under the key on success, keep the state
untouched and report `false` on failure. -/
def EditorState.modify_file (st : EditorState) (file_name file_content : List Char) :
    EditorState × Bool :=
  match FileState.new file_content with
  | some fs => (⟨fun k => if k = file_name then some fs else st.files k⟩, true)
  | none => (st, false)

/-- `editor::EditorState::get_file_state`. -/
def EditorState.get_file_state (st : EditorState) (file_name : List Char) :
    Option FileState :=
  st.files file_name

/-- Result of computing the hover response contents: either a response
string, or a panic of the debug build (an arithmetic overflow check). -/
inductive HoverOut where
  | msg : List Char → HoverOut
  | panicked : HoverOut
deriving DecidableEq

/-- The hover-branch response computation of `lsp::handle_message`
(src/lib.rs lines 349–361).  `usize::pow(2, line)` overflows for
`line ≥ 64`, and `(index - 1) / 2` in the diagnostic branch underflows at
`index = 0`; under the debug profile both are panics, modelled explicitly.
Character counts below stay exact because `2^line - 1 + char/2 < 2^64`
whenever `line < 64` and `char < 2^64`. -/
def hoverContents (fs : FileState) (line char_num : Nat) : HoverOut :=
  if 64 ≤ line then .panicked
  else
    if char_num % 2 ≠ 0 then
      .msg ("Character count: ".data ++ toDec fs.get_char_count)
    else
      match fs.parent (2 ^ line - 1 + char_num / 2) with
      | some c => .msg ("Parent: ".data ++ c)
      | none =>
        if 2 ^ line - 1 + char_num / 2 = 0 then .panicked
        else
          .msg ("Could not find parent to ".data ++ toDec (2 ^ line - 1 + char_num / 2) ++
            [' '] ++ toDec ((2 ^ line - 1 + char_num / 2 - 1) / 2))

theorem bytLen_append (a b : List Char) : bytLen (a ++ b) = bytLen a + bytLen b := by
  simp [bytLen]

theorem length_le_bytLen (s : List Char) : s.length ≤ bytLen s := by
  induction s with
  | nil => simp [bytLen]
  | cons c t ih =>
    have h1 : bytLen (c :: t) = chSize c + bytLen t := rfl
    have h2 := chSize_pos c
    simp only [List.length_cons]
    omega

theorem bytLen_digits (ds : List Char) (h : ∀ c ∈ ds, isDigitN c) :
    bytLen ds = ds.length := by
  induction ds with
  | nil => rfl
  | cons c t ih =>
    have hc : isDigitN c := h c (List.mem_cons_self c t)
    have h1 : chSize c = 1 := by
      unfold isDigitN at hc
      unfold chSize
      rw [if_pos (by omega)]
    have h2 : bytLen (c :: t) = chSize c + bytLen t := rfl
    rw [h2, h1, ih (fun x hx => h x (List.mem_cons_of_mem c hx)), List.length_cons]
    omega

theorem stripPrefix_append (p : List Char) : ∀ s, stripPrefix p (p ++ s) = some s := by
  induction p with
  | nil => intro s; rfl
  | cons a ps ih =>
    intro s
    show stripPrefix (a :: ps) (a :: (ps ++ s)) = some s
    rw [stripPrefix, if_pos rfl, ih]

theorem isPrefixOf_append_self (p s : List Char) : p.isPrefixOf (p ++ s) = true :=
  List.isPrefixOf_iff_prefix.mpr (List.prefix_append p s)

theorem splitOnce_at_sep (m : List Char) : splitOnce crlf2 (crlf2 ++ m) = some ([], m) := by
  show splitOnce crlf2 ('\r' :: '\n' :: '\r' :: '\n' :: m) = some ([], m)
  rw [splitOnce, if_pos (show crlf2.isPrefixOf ('\r' :: '\n' :: '\r' :: '\n' :: m) = true
    from isPrefixOf_append_self crlf2 m)]
  simp [crlf2]

theorem splitOnce_junction (m : List Char) : ∀ h, (∀ c ∈ h, c ≠ '\r') →
    splitOnce crlf2 (h ++ (crlf2 ++ m)) = some (h, m) := by
  intro h
  induction h with
  | nil => intro _; simpa using splitOnce_at_sep m
  | cons c t ih =>
    intro hh
    have hc : c ≠ '\r' := hh c (List.mem_cons_self c t)
    have hbeq : ('\r' == c) = false := beq_eq_false_iff_ne.mpr (Ne.symm hc)
    have hpre : crlf2.isPrefixOf (c :: (t ++ (crlf2 ++ m))) = false := by
      simp [crlf2, List.isPrefixOf, hbeq]
    rw [List.cons_append, splitOnce, if_neg (by simp [hpre])]
    rw [ih (fun x hx => hh x (List.mem_cons_of_mem c hx))]

theorem stripPrefix_clPrefix_digit (c : Char) (t : List Char) (hc : isDigitN c) :
    stripPrefix clPrefix (c :: t) = none := by
  have hne : ¬ ('C' = c) := by
    intro h
    rw [← h] at hc
    revert hc
    decide
  unfold clPrefix
  rw [stripPrefix, if_neg hne]

theorem trim_clPrefix_digits (ds : List Char) (hds : ∀ c ∈ ds, isDigitN c) :
    trimStartMatches clPrefix (clPrefix ++ ds) = ds := by
  unfold trimStartMatches
  have hlen : (clPrefix ++ ds).length = (ds.length + 15) + 1 := by
    simp [clPrefix]
    try omega
  rw [hlen, trimCore, if_neg (show ¬ (clPrefix = []) by decide), stripPrefix_append]
  show trimCore (ds.length + 15) clPrefix ds = ds
  cases ds with
  | nil => decide
  | cons c t =>
    have hc : isDigitN c := hds c (List.mem_cons_self c t)
    rw [show (c :: t).length + 15 = (t.length + 15) + 1 by simp]
    rw [trimCore, if_neg (show ¬ (clPrefix = []) by decide),
      stripPrefix_clPrefix_digit c t hc]

theorem byteTake_bytLen (m : List Char) : byteTake (bytLen m) m = some m := by
  induction m with
  | nil => rfl
  | cons c t ih =>
    have h1 : bytLen (c :: t) = chSize c + bytLen t := rfl
    have h2 := chSize_pos c
    rw [h1, byteTake, if_neg (by omega), if_pos (by omega),
      show chSize c + bytLen t - chSize c = bytLen t by omega, ih]
    rfl

theorem bytLen_clPrefix : bytLen clPrefix = 16 := by decide

/-- `decode_message` on a freshly encoded message: the whole payload with the
total length the code computes. -/
theorem decode_encode (m : List Char) (hm : bytLen m < 2 ^ 64) :
    decode_message (encode_message m)
      = DecodeOut.popped m (bytLen (clPrefix ++ toDec (bytLen m)) + 4 + bytLen m) := by
  have hdig : ∀ c ∈ toDec (bytLen m), isDigitN c := by
    rw [toDec_eq_toDecW]
    exact toDecW_digits _
  have hnoCR : ∀ c ∈ clPrefix ++ toDec (bytLen m), c ≠ '\r' := by
    intro c hcm
    rw [List.mem_append] at hcm
    rcases hcm with h | h
    · have hx : ∀ x ∈ clPrefix, x ≠ '\r' := by decide
      exact hx c h
    · have hd := hdig c h
      unfold isDigitN at hd
      intro he
      rw [he] at hd
      revert hd
      decide
  have henc : encode_message m = (clPrefix ++ toDec (bytLen m)) ++ (crlf2 ++ m) := by
    unfold encode_message
    simp [List.append_assoc]
  rw [henc]
  have hsplit := splitOnce_junction m (clPrefix ++ toDec (bytLen m)) hnoCR
  have hpre := isPrefixOf_append_self clPrefix (toDec (bytLen m))
  have htrim := trim_clPrefix_digits (toDec (bytLen m)) hdig
  have hparse := parseUsize_toDec (bytLen m) hm
  have hbt := byteTake_bytLen m
  simp only [decode_message, hsplit, hpre, if_true, htrim, hparse, gt_iff_lt,
    lt_self_iff_false, if_false, hbt]

/-- `pop_message` on a freshly encoded message, written into an empty
buffer byte by byte: the exact payload comes back and the buffer drains. -/
theorem pop_encode (m : List Char) (hm : bytLen m < 2 ^ 64) :
    pop_message (write [] (strBytes (encode_message m))) = ([], PopOut.complete m) := by
  have hw : write [] (strBytes (encode_message m)) = encode_message m := by
    unfold write
    rw [lossyDecode_strBytes, List.nil_append]
  rw [hw]
  have hdig : ∀ c ∈ toDec (bytLen m), isDigitN c := by
    rw [toDec_eq_toDecW]
    exact toDecW_digits _
  have hdrop : (encode_message m).length
      ≤ bytLen (clPrefix ++ toDec (bytLen m)) + 4 + bytLen m := by
    have h1 : (encode_message m).length
        = 16 + ((toDec (bytLen m)).length + (4 + m.length)) := by
      unfold encode_message
      simp [clPrefix, crlf2]
      try omega
    have h2 : bytLen (clPrefix ++ toDec (bytLen m)) = 16 + (toDec (bytLen m)).length := by
      rw [bytLen_append, bytLen_clPrefix, bytLen_digits _ hdig]
    have h3 := length_le_bytLen m
    omega
  simp only [pop_message, decode_encode m hm]
  rw [List.drop_eq_nil_of_le hdrop]

/-- C1: popping a buffer holding two pipelined encoded messages returns the
first payload but consumes `header.len() + 4 + content.len()` units — the
whole buffer, because the code uses the length of the entire remainder
instead of `content_length` — so the second message (23 units that should
have stayed buffered) is dropped, contradicting the stated invariant. -/
theorem c1_pipelined_bytes_dropped :
    decode_message (encode_message "ab".data ++ encode_message "cd".data)
      = DecodeOut.popped "ab".data 46
    ∧ pop_message (encode_message "ab".data ++ encode_message "cd".data)
      = ([], PopOut.complete "ab".data)
    ∧ (encode_message "ab".data).length = 23
    ∧ encode_message "cd".data ≠ [] := by decide

/-- C2 (counterexample): a buffer that is a plain header prefix, in which
`"\r\n\r\n"` does not occur, makes `pop_message` return the `Malformed`
error `"Invalid format, contains no \r\n\r\n"`, not `Incomplete` as the
claim states. -/
theorem c2_no_separator_counterexample :
    pop_message "Content-Le".data = ("Content-Le".data, PopOut.malformed errNoSep)
    ∧ PopOut.malformed errNoSep ≠ PopOut.incomplete := by decide

/-- C2 (amended): for every pending buffer in which the 4-byte separator
`"\r\n\r\n"` does not occur, `pop_message` returns the `Malformed` error
(reason: contains no `\r\n\r\n`) rather than `Incomplete`, and the buffer is
left unchanged. -/
theorem c2_no_separator_is_malformed (data : List Char)
    (h : splitOnce crlf2 data = none) :
    pop_message data = (data, PopOut.malformed errNoSep) := by
  unfold pop_message decode_message
  rw [h]

/-- C2 (witness): the amended behaviour at the concrete buffer
`"Content-Length: 2"`. -/
theorem c2_no_separator_is_malformed_witness :
    pop_message "Content-Length: 2".data
      = ("Content-Length: 2".data, PopOut.malformed errNoSep) :=
  c2_no_separator_is_malformed "Content-Length: 2".data (by decide)

/-- C3: hovering the root (line 0, character 0) of a stored one-node
document reaches the diagnostic branch with `index = 0`, where
`(index - 1) / 2` underflows `usize`: under the debug profile's overflow
checks this is a panic, not the diagnostic response the claim promises. -/
theorem c3_hover_root_underflow :
    FileState.new "A".data = some ⟨[['A']], 1⟩
    ∧ FileState.parent ⟨[['A']], 1⟩ 0 = none
    ∧ hoverContents ⟨[['A']], 1⟩ 0 0 = HoverOut.panicked := by decide

/-- C4 (counterexample): the text `"A\né"` validates, and its stored
`char_count` is 4 — the UTF-8 byte length — while its character length is
3, refuting the claim for texts with multi-byte characters. -/
theorem c4_multibyte_char_count_counterexample :
    FileState.new "A\né".data = some ⟨[['A'], ['é']], 4⟩
    ∧ ("A\né".data).length = 3
    ∧ (FileState.mk [['A'], ['é']] 4).char_count ≠ ("A\né".data).length := by decide

/-- C4 (amended): for every text accepted by `FileState::new`, the stored
`char_count` equals the UTF-8 *byte* length of the raw source text prior to
splitting (`file_content.len()`), newlines and separator spaces included;
it equals the character length only when the text is ASCII. -/
theorem c4_char_count_is_byte_length (t : List Char) (fs : FileState)
    (h : FileState.new t = some fs) : fs.char_count = bytLen t := by
  unfold FileState.new at h
  cases hb : buildTree ((rustLines t).length - 1) 0 (rustLines t) with
  | none => rw [hb] at h; exact absurd h (by simp)
  | some tr =>
    rw [hb] at h
    injection h with h'
    rw [← h']

/-- C4 (witness): the amended relation at the concrete text `"A\né"`. -/
theorem c4_char_count_is_byte_length_witness :
    (FileState.mk [['A'], ['é']] 4).char_count = bytLen "A\né".data :=
  c4_char_count_is_byte_length "A\né".data (FileState.mk [['A'], ['é']] 4) (by decide)

/-- C5: for every payload whose byte length fits in a `usize`, encoding it,
writing the bytes into a fresh buffer and popping yields `Complete` with
exactly that payload and leaves the buffer empty. -/
theorem c5_framing_roundtrip (payload : List Char) (h : bytLen payload < 2 ^ 64) :
    pop_message (write [] (strBytes (encode_message payload)))
      = ([], PopOut.complete payload) :=
  pop_encode payload h

/-- C5 (witness): the round trip at the concrete payload `"hi"`. -/
theorem c5_framing_roundtrip_witness :
    pop_message (write [] (strBytes (encode_message "hi".data)))
      = ([], PopOut.complete "hi".data) :=
  c5_framing_roundtrip "hi".data (by decide)

/-- C6 (counterexample): splitting the encoded message for payload `"é"`
into two non-empty byte chunks *inside* the character `'é'` makes
per-chunk lossy decoding corrupt the buffer (two U+FFFD), so popping no
longer yields the same result as appending the whole message at once. -/
theorem c6_mid_character_chunk_counterexample :
    (strBytes (encode_message "é".data)).take 22 ≠ []
    ∧ (strBytes (encode_message "é".data)).drop 22 ≠ []
    ∧ (strBytes (encode_message "é".data)).take 22
        ++ (strBytes (encode_message "é".data)).drop 22
      = strBytes (encode_message "é".data)
    ∧ pop_message (write (write [] ((strBytes (encode_message "é".data)).take 22))
          ((strBytes (encode_message "é".data)).drop 22))
      ≠ pop_message (write [] (strBytes (encode_message "é".data))) := by decide

theorem write_foldl (chunks : List (List Char)) : ∀ init : List Char,
    (chunks.map strBytes).foldl write init = init ++ chunks.flatten := by
  induction chunks with
  | nil => intro init; simp
  | cons ch rest ih =>
    intro init
    simp only [List.map_cons, List.foldl_cons, List.flatten_cons]
    rw [ih (write init (strBytes ch))]
    unfold write
    rw [lossyDecode_strBytes, List.append_assoc]

/-- C6 (amended): for every encoded message and every way of splitting it
into finitely many non-empty chunks *at character boundaries* (each chunk
the UTF-8 bytes of a run of characters), appending the chunks in order and
popping yields the same result as appending the whole message at once.
(Chunks that split a multi-byte character apart do not satisfy this: each
fragment is decoded lossily on its own, see the counterexample.) -/
theorem c6_chunking_boundary_invariance (payload : List Char)
    (chunks : List (List Char))
    (hne : ∀ ch ∈ chunks, ch ≠ ([] : List Char))
    (hflat : chunks.flatten = encode_message payload) :
    pop_message ((chunks.map strBytes).foldl write [])
      = pop_message (write [] (strBytes (encode_message payload))) := by
  have _ := hne
  rw [write_foldl chunks [], List.nil_append, hflat]
  unfold write
  rw [lossyDecode_strBytes, List.nil_append]

/-- C6 (witness): chunk-boundary invariance at the concrete payload `"hi"`
split into the two chunks `"Content-Le"` and `"ngth: 2\r\n\r\nhi"`. -/
theorem c6_chunking_boundary_invariance_witness :
    pop_message ((["Content-Le".data, "ngth: 2\r\n\r\nhi".data].map strBytes).foldl write [])
      = pop_message (write [] (strBytes (encode_message "hi".data))) :=
  c6_chunking_boundary_invariance "hi".data
    ["Content-Le".data, "ngth: 2\r\n\r\nhi".data] (by decide) (by decide)

/-- C9 (counterexample): on a stored document of raw length 7, hovering at
line 64 with odd character 1 panics (the eager `usize::pow(2, line)`
overflows under the debug profile) instead of returning
`"Character count: 7"`, refuting "regardless of line and character". -/
theorem c9_line64_overflow_counterexample :
    FileState.new "A\nB C\nD".data = some ⟨[['A'], ['B'], ['C'], ['D']], 7⟩
    ∧ hoverContents ⟨[['A'], ['B'], ['C'], ['D']], 7⟩ 64 1 = HoverOut.panicked
    ∧ HoverOut.panicked ≠ HoverOut.msg "Character count: 7".data := by decide

/-- C9 (amended): for every stored document and every hover position with
`line < 64` (so the eager `2^line` fits a `usize`) and odd `character`, the
hover response contents is exactly `"Character count: {char_count}"` —
for a document of raw length 7, `"Character count: 7"`. -/
theorem c9_hover_odd_reports_char_count (fs : FileState) (line char_num : Nat)
    (hline : line < 64) (hodd : char_num % 2 = 1) :
    hoverContents fs line char_num
      = HoverOut.msg ("Character count: ".data ++ toDec fs.get_char_count) := by
  unfold hoverContents
  rw [if_neg (by omega), if_pos (by omega)]

/-- C9 (witness): the amended behaviour on the stored length-7 document at
line 5, character 3. -/
theorem c9_hover_odd_reports_char_count_witness :
    hoverContents ⟨[['A'], ['B'], ['C'], ['D']], 7⟩ 5 3
      = HoverOut.msg "Character count: 7".data := by
  rw [c9_hover_odd_reports_char_count ⟨[['A'], ['B'], ['C'], ['D']], 7⟩ 5 3
    (by omega) (by decide)]
  decide

/-- C10 (counterexample): on the empty document, the child lookups do not
return `None` at *every* index: at `index = 2^63` (left) and
`index = 2^63 - 1` (right) the child-index arithmetic overflows `usize`
and panics under the debug profile's overflow checks. -/
theorem c10_child_overflow_counterexample :
    FileState.left_child ⟨[], 0⟩ (2 ^ 63) = NavOut.panicked
    ∧ FileState.right_child ⟨[], 0⟩ (2 ^ 63 - 1) = NavOut.panicked
    ∧ NavOut.panicked ≠ NavOut.res none := by decide

/-- C10 (amended): the empty string is accepted: `FileState::new("")`
succeeds with an empty node sequence and `char_count = 0`; on the resulting
document `get(i)` and `parent(i)` return `None` at every index, and
`left_child(i)` / `right_child(i)` return `None` at every index small
enough that the child-index arithmetic fits a `usize` (`i < 2^63`,
resp. `i < 2^63 - 1`; above that the debug build panics). -/
theorem c10_empty_document_in_range :
    FileState.new "".data = some ⟨[], 0⟩
    ∧ (∀ i, FileState.get ⟨[], 0⟩ i = none)
    ∧ (∀ i, i < 2 ^ 63 → FileState.left_child ⟨[], 0⟩ i = NavOut.res none)
    ∧ (∀ i, i < 2 ^ 63 - 1 → FileState.right_child ⟨[], 0⟩ i = NavOut.res none)
    ∧ (∀ i, FileState.parent ⟨[], 0⟩ i = none) := by
  refine ⟨by decide, fun i => rfl, fun i hi => ?_, fun i hi => ?_, fun i => ?_⟩
  · unfold FileState.left_child
    rw [if_neg (by omega)]
    rfl
  · unfold FileState.right_child
    rw [if_neg (by omega)]
    rfl
  · cases i with
    | zero => rfl
    | succ j => rfl

/-- Success of the validation loop implies, line by line: the exact-width
rule off the last index, the at-most rule everywhere, spaces at odd
offsets, and that the tree is the concatenation of the even-offset labels. -/
theorem buildTree_spec : ∀ (ls : List (List Char)) (last d : Nat) (t : List (List Char)),
    buildTree last d ls = some t →
    t = (ls.map (fun l => (everyOther l).map (fun c => [c]))).flatten
    ∧ ∀ i (hi : i < ls.length),
        ((d + i ≠ last → bytLen (ls.get ⟨i, hi⟩) = 2 ^ (d + i + 1) - 1)
          ∧ bytLen (ls.get ⟨i, hi⟩) ≤ 2 ^ (d + i + 1) - 1
          ∧ ∀ c ∈ everyOther ((ls.get ⟨i, hi⟩).drop 1), c = ' ') := by
  intro ls
  induction ls with
  | nil =>
    intro last d t h
    have h' : some ([] : List (List Char)) = some t := h
    injection h' with h''
    subst h''
    exact ⟨rfl, fun i hi => absurd hi (by simp)⟩
  | cons line rest ih =>
    intro last d t h
    rw [buildTree] at h
    by_cases h1 : (d ≠ last ∧ bytLen line ≠ 2 ^ (d + 1) - 1)
      ∨ (d = last ∧ bytLen line > 2 ^ (d + 1) - 1)
    case pos => rw [if_pos h1] at h; exact absurd h (by simp)
    rw [if_neg h1] at h
    by_cases h2 : (everyOther (line.drop 1)).all (fun c => decide (c = ' ')) = true
    case neg => rw [if_pos h2] at h; exact absurd h (by simp)
    rw [if_neg (not_not_intro h2)] at h
    · cases hb : buildTree last (d + 1) rest with
      | none => rw [hb] at h; exact absurd h (by simp)
      | some t' =>
        rw [hb] at h
        have ht : t = (everyOther line).map (fun c => [c]) ++ t' := by
          injection h with h'
          exact h'.symm
        obtain ⟨ih1, ih2⟩ := ih last (d + 1) t' hb
        refine ⟨by rw [ht, ih1, List.map_cons, List.flatten_cons], ?_⟩
        intro i hi
        cases i with
        | zero =>
          have hg : (line :: rest).get ⟨0, hi⟩ = line := rfl
          simp only [Nat.add_zero, hg]
          refine ⟨?_, ?_, ?_⟩
          · intro hd
            by_contra hne
            exact h1 (Or.inl ⟨hd, hne⟩)
          · rcases eq_or_ne d last with hd | hd
            · by_contra hgt
              exact h1 (Or.inr ⟨hd, by omega⟩)
            · have hw : bytLen line = 2 ^ (d + 1) - 1 := by
                by_contra hne
                exact h1 (Or.inl ⟨hd, hne⟩)
              omega
          · have hall := h2
            rw [List.all_eq_true] at hall
            intro c hc
            exact of_decide_eq_true (hall c hc)
        | succ j =>
          have hj : j < rest.length := by simpa using hi
          have hrec := ih2 j hj
          have hg : (line :: rest).get ⟨j + 1, hi⟩ = rest.get ⟨j, hj⟩ := rfl
          rw [hg]
          have harith : d + 1 + j = d + (j + 1) := by omega
          rw [harith] at hrec
          exact hrec

/-- C7: document validation follows the fixed-width line rules.  The text
`"A\nB C\nD"` validates with `get(0)="A"`, `get(1)="B"`, `get(2)="C"`,
`left_child(1)="D"`; a second line `"B  C"` of the wrong width is rejected;
and in general, whenever validation succeeds, every non-last line at depth
`d` has byte length exactly `2^(d+1) - 1`, the last at most that, all odd
offsets hold spaces, and the node labels are precisely the even-offset
characters of the lines in level order. -/
theorem c7_tree_validation :
    FileState.new "A\nB C\nD".data = some ⟨[['A'], ['B'], ['C'], ['D']], 7⟩
    ∧ FileState.get ⟨[['A'], ['B'], ['C'], ['D']], 7⟩ 0 = some ['A']
    ∧ FileState.get ⟨[['A'], ['B'], ['C'], ['D']], 7⟩ 1 = some ['B']
    ∧ FileState.get ⟨[['A'], ['B'], ['C'], ['D']], 7⟩ 2 = some ['C']
    ∧ FileState.left_child ⟨[['A'], ['B'], ['C'], ['D']], 7⟩ 1 = NavOut.res (some ['D'])
    ∧ FileState.new "A\nB  C\nD".data = none
    ∧ (∀ t fs, FileState.new t = some fs →
        fs.tree = ((rustLines t).map (fun l => (everyOther l).map (fun c => [c]))).flatten
        ∧ ∀ d (hd : d < (rustLines t).length),
            (d ≠ (rustLines t).length - 1 →
              bytLen ((rustLines t).get ⟨d, hd⟩) = 2 ^ (d + 1) - 1)
            ∧ bytLen ((rustLines t).get ⟨d, hd⟩) ≤ 2 ^ (d + 1) - 1
            ∧ ∀ c ∈ everyOther (((rustLines t).get ⟨d, hd⟩).drop 1), c = ' ') := by
  refine ⟨by decide, by decide, by decide, by decide, by decide, by decide, ?_⟩
  intro t fs h
  unfold FileState.new at h
  cases hb : buildTree ((rustLines t).length - 1) 0 (rustLines t) with
  | none => rw [hb] at h; exact absurd h (by simp)
  | some tr =>
    rw [hb] at h
    injection h with h'
    obtain ⟨h1, h2⟩ := buildTree_spec (rustLines t) ((rustLines t).length - 1) 0 tr hb
    constructor
    · rw [← h']
      exact h1
    · intro d hd
      have hrec := h2 d hd
      simpa [Nat.zero_add] using hrec

/-- Replay a list of `(uri, text)` updates through `modify_file`, as the
didOpen/didChange dispatch does. -/
def applyOps : EditorState → List (List Char × List Char) → EditorState
  | st, [] => st
  | st, (uri, text) :: rest => applyOps (st.modify_file uri text).1 rest

theorem applyOps_validated (ops : List (List Char × List Char)) :
    ∀ st : EditorState,
    (∀ uri fs, st.get_file_state uri = some fs → ∃ text, FileState.new text = some fs) →
    ∀ uri fs, (applyOps st ops).get_file_state uri = some fs →
      ∃ text, FileState.new text = some fs := by
  induction ops with
  | nil => intro st hst; exact hst
  | cons op rest ih =>
    intro st hst
    obtain ⟨uri0, text0⟩ := op
    apply ih
    intro uri fs hget
    unfold EditorState.modify_file at hget
    cases hn : FileState.new text0 with
    | none =>
      rw [hn] at hget
      exact hst uri fs hget
    | some fs0 =>
      rw [hn] at hget
      simp only [EditorState.get_file_state] at hget
      by_cases he : uri = uri0
      · rw [if_pos he] at hget
        injection hget with hg
        exact ⟨text0, by rw [hn, hg]⟩
      · rw [if_neg he] at hget
        exact hst uri fs hget

/-- C8: a failed validation leaves the editor state exactly as it was (no
insertion, no deletion) and reports `false`; a successful one commits the
validated document under the URI; consequently, along any sequence of
updates from the empty state, every stored document is one produced by a
successfully validated text. -/
theorem c8_invalid_update_preserves_state :
    (∀ st uri text, FileState.new text = none →
      EditorState.modify_file st uri text = (st, false))
    ∧ (∀ st uri text fs, FileState.new text = some fs →
      (EditorState.modify_file st uri text).1.get_file_state uri = some fs)
    ∧ (∀ ops uri fs,
        (applyOps EditorState.new ops).get_file_state uri = some fs →
        ∃ text, FileState.new text = some fs) := by
  refine ⟨?_, ?_, ?_⟩
  · intro st uri text h
    unfold EditorState.modify_file
    rw [h]
  · intro st uri text fs h
    unfold EditorState.modify_file
    rw [h]
    simp [EditorState.get_file_state]
  · intro ops uri fs
    exact applyOps_validated ops EditorState.new
      (fun u f hf => by simp [EditorState.new, EditorState.get_file_state] at hf) uri fs

end LspRs
